import Mathlib

/-!
Verification of the IOBuf buffer-descriptor engine (src/src/folly/io/IOBuf.h).

Shallow embedding conventions: addresses and byte values are `Nat`; a null
pointer is `0`; `uint32_t` arithmetic is modelled with an explicit `% 2^32`
exactly where the C++ expression can wrap.  Pointer differences such as
`headroom()` and `tailroom()` use truncated `Nat` subtraction, which agrees
with the C++ values on every descriptor satisfying the buffer invariant.
The byte store is a total function from addresses to byte values.
-/

namespace IOBufModel

/-- Modulus of `uint32_t` arithmetic. -/
def UINT32_LIMIT : Nat := 4294967296

/-- Largest value representable in a `uint32_t`. -/
def UINT32_MAX : Nat := 4294967295

/-- The `type_` field values (`ExtBufTypeEnum` in the header). -/
inductive ExtBufType
  | kExtAllocated
  | kExtUserSupplied
  | kExtUserOwned
  | kCombinedAlloc
deriving DecidableEq

/-- One IOBuf descriptor.  `selfId` stands for the address of the object
itself (the C++ `this` pointer) so that the self-referential chain links of
a singleton can be expressed; `next_` and `prev_` hold descriptor ids.
The three flag bits of the `flags_` bitset are modelled as three booleans,
`sharedInfo_` keeps just the refcount of the arena metadata (`none` models a
null `sharedInfo_` pointer), and `mem` is the byte store of the address
space. -/
structure IOBufM where
  selfId : Nat
  next_ : Nat
  prev_ : Nat
  data_ : Nat
  buf_ : Nat
  length_ : Nat
  capacity_ : Nat
  flagUserOwned : Bool
  flagFreeSharedInfo : Bool
  flagMaybeShared : Bool
  type_ : ExtBufType
  sharedInfo_ : Option Nat
  mem : Nat → Nat

/-- headroom(): `data_ - buffer()`. -/
def headroom (b : IOBufM) : Nat := b.data_ - b.buf_

/-- tailroom(): `bufferEnd() - tail()`, that is `(buf_ + capacity_) - (data_ + length_)`. -/
def tailroom (b : IOBufM) : Nat := (b.buf_ + b.capacity_) - (b.data_ + b.length_)

/-- Semantics of `memmove(dst, src, len)` on the byte store: the overlap-safe
move writes, at each address of `[dst, dst+len)`, the byte the source region
held before the call; every other address is untouched. -/
def memmove (dst src len : Nat) (m : Nat → Nat) : Nat → Nat :=
  fun a => if dst ≤ a ∧ a < dst + len then m (src + (a - dst)) else m a

/-- Semantics of `memcpy(dst, src, len)` from an external byte source
(indexed from 0) into the store. -/
def memcpy (dst : Nat) (src : Nat → Nat) (len : Nat) (m : Nat → Nat) : Nat → Nat :=
  fun a => if dst ≤ a ∧ a < dst + len then src (a - dst) else m a

/-- advance(amount): if there is data, memmove it forward by `amount`, then
`data_ += amount`. -/
def advance (amount : Nat) (b : IOBufM) : IOBufM :=
  { b with
    mem := if 0 < b.length_ then memmove (b.data_ + amount) b.data_ b.length_ b.mem else b.mem,
    data_ := b.data_ + amount }

/-- retreat(amount): if there is data, memmove it backward by `amount`, then
`data_ -= amount`. -/
def retreat (amount : Nat) (b : IOBufM) : IOBufM :=
  { b with
    mem := if 0 < b.length_ then memmove (b.data_ - amount) b.data_ b.length_ b.mem else b.mem,
    data_ := b.data_ - amount }

/-- prepend(amount): `data_ -= amount; length_ += amount`. -/
def prepend (amount : Nat) (b : IOBufM) : IOBufM :=
  { b with data_ := b.data_ - amount, length_ := b.length_ + amount }

/-- append(amount): `length_ += amount`. -/
def append (amount : Nat) (b : IOBufM) : IOBufM :=
  { b with length_ := b.length_ + amount }

/-- trimStart(amount): `data_ += amount; length_ -= amount`. -/
def trimStart (amount : Nat) (b : IOBufM) : IOBufM :=
  { b with data_ := b.data_ + amount, length_ := b.length_ - amount }

/-- trimEnd(amount): `length_ -= amount`. -/
def trimEnd (amount : Nat) (b : IOBufM) : IOBufM :=
  { b with length_ := b.length_ - amount }

/-- clear(): `data_ = writableBuffer(); length_ = 0`. -/
def clear (b : IOBufM) : IOBufM :=
  { b with data_ := b.buf_, length_ := 0 }

/-- Modelled from the spec: `reserveSlow` is declared in the header but its
body lives in IOBuf.cpp, which is not part of src.  Following section 4.4 of
the spec, for a unique arena: if the total capacity suffices, memmove the
window so that the asks hold (data is re-seated at `buf_ + minHeadroom`);
otherwise allocate a fresh arena of `good_size(minHeadroom + length +
minTailroom)` and copy the window into it at the requested headroom.
`good_size` is modelled as the identity and the fresh arena is modelled at
the same base address, so both branches re-seat the window at
`buf_ + minHeadroom`. -/
def reserveSlow (minHeadroom minTailroom : Nat) (b : IOBufM) : IOBufM :=
  if minHeadroom + b.length_ + minTailroom ≤ b.capacity_ then
    { b with
      mem := memmove (b.buf_ + minHeadroom) b.data_ b.length_ b.mem,
      data_ := b.buf_ + minHeadroom }
  else
    { b with
      mem := memmove (b.buf_ + minHeadroom) b.data_ b.length_ b.mem,
      data_ := b.buf_ + minHeadroom,
      capacity_ := minHeadroom + b.length_ + minTailroom }

/-- reserve(minHeadroom, minTailroom), translated from the header.  The sum
`minHeadroom + minTailroom` in the second guard is a `uint32_t` addition and
wraps modulo `2^32`; `headroom() + tailroom()` never wraps on a descriptor
satisfying the invariant since it is bounded by the capacity. -/
def reserve (minHeadroom minTailroom : Nat) (b : IOBufM) : IOBufM :=
  if minHeadroom ≤ headroom b ∧ minTailroom ≤ tailroom b then
    b
  else if b.length_ = 0 ∧ (minHeadroom + minTailroom) % UINT32_LIMIT ≤ headroom b + tailroom b then
    { b with data_ := b.buf_ + minHeadroom }
  else
    reserveSlow minHeadroom minTailroom b

/-- The buffer invariant of the spec: `buf ≤ data ≤ data + length ≤ buf + cap`
(the middle inequality is automatic over `Nat`). -/
def invariant (b : IOBufM) : Prop :=
  b.buf_ ≤ b.data_ ∧ b.data_ + b.length_ ≤ b.buf_ + b.capacity_

instance (b : IOBufM) : Decidable (invariant b) :=
  inferInstanceAs (Decidable (_ ∧ _))

/-- The guard disjunction under which `reserve` takes one of its two fast
paths (the first and second early return of the header code). -/
def reserveFastPath (minHeadroom minTailroom : Nat) (b : IOBufM) : Prop :=
  (minHeadroom ≤ headroom b ∧ minTailroom ≤ tailroom b) ∨
  (b.length_ = 0 ∧ (minHeadroom + minTailroom) % UINT32_LIMIT ≤ headroom b + tailroom b)

instance (h t : Nat) (b : IOBufM) : Decidable (reserveFastPath h t b) :=
  inferInstanceAs (Decidable (_ ∨ _))

/-- isSharedOne(), translated from the header.  The result pairs the returned
boolean with the descriptor after the call, because the function may clear
the `MaybeShared` flag (the field is `mutable` in the source).  `none` models
the null dereference that the source would perform if `MaybeShared` were set
with a null `sharedInfo_`. -/
def isSharedOne (b : IOBufM) : Option (Bool × IOBufM) :=
  if (b.flagUserOwned || b.flagMaybeShared) = false then
    some (false, b)
  else if b.flagUserOwned then
    some (true, b)
  else
    match b.sharedInfo_ with
    | none => none
    | some rc =>
      if 1 < rc then
        some (true, b)
      else
        some (false, { b with flagMaybeShared := false })

/-- The default-constructed IOBuf, from the member initializers of the
header: self-linked chain pointers, null data and buffer, zero length and
capacity, `flags_ = kFlagUserOwned`, `type_ = kExtUserOwned`, null
`sharedInfo_`. -/
def defaultIOBuf (id : Nat) : IOBufM :=
  { selfId := id
    next_ := id
    prev_ := id
    data_ := 0
    buf_ := 0
    length_ := 0
    capacity_ := 0
    flagUserOwned := true
    flagFreeSharedInfo := false
    flagMaybeShared := false
    type_ := ExtBufType.kExtUserOwned
    sharedInfo_ := none
    mem := fun _ => 0 }

/-- Modelled from the spec: `create(capacity)` is declared in the header but
implemented in IOBuf.cpp, which is not part of src.  Per the factory table of
section 4.2, it yields a singleton descriptor over a new Allocated arena of
at least the requested capacity (`good_size` is modelled as the identity),
with `data = buf`, `length = 0` and a refcount of 1.  The id of the new
descriptor and the base address of the new arena are parameters of the
model. -/
def create (id base capacity : Nat) : IOBufM :=
  { selfId := id
    next_ := id
    prev_ := id
    data_ := base
    buf_ := base
    length_ := 0
    capacity_ := capacity
    flagUserOwned := false
    flagFreeSharedInfo := false
    flagMaybeShared := false
    type_ := ExtBufType.kExtAllocated
    sharedInfo_ := some 1
    mem := fun _ => 0 }

/-- copyBuffer(data, size, headroom, minTailroom), translated from the inline
definition in the header: the requested capacity is the `uint32_t` sum
`headroom + size + minTailroom` (which wraps modulo `2^32`), then
`create(capacity)`, `advance(headroom)`, `memcpy(writableData(), data,
size)`, `append(size)`.  The external input bytes are `dataSrc`. -/
def copyBuffer (id base : Nat) (dataSrc : Nat → Nat) (size hr minTailroom : Nat) : IOBufM :=
  let capacity := (hr + size + minTailroom) % UINT32_LIMIT
  let buf := create id base capacity
  let buf := advance hr buf
  let buf := { buf with mem := memcpy buf.data_ dataSrc size buf.mem }
  append size buf

/-- Concrete descriptor used by the overflow counterexamples: a valid,
unshared, empty descriptor of capacity 0 over a freshly allocated arena. -/
def cxBuf : IOBufM :=
  { selfId := 0
    next_ := 0
    prev_ := 0
    data_ := 0
    buf_ := 0
    length_ := 0
    capacity_ := 0
    flagUserOwned := false
    flagFreeSharedInfo := false
    flagMaybeShared := false
    type_ := ExtBufType.kExtAllocated
    sharedInfo_ := some 1
    mem := fun _ => 0 }

/-- Chain links as pointer maps.  A chain heap is a pair of functions
`next, prev : Nat → Nat` over descriptor ids; `linkSeq nf pf a l z` states
that starting at node `a`, the nodes of `l` follow in order through the
`next_` pointers, ending with a link from the last of them to `z`, and that
every one of these links is mirrored by the matching `prev_` pointer.  A
well-formed circular chain whose members are `a :: l` in order is
`linkSeq nf pf a l a` together with `(a :: l).Nodup`. -/
def linkSeq (nf pf : Nat → Nat) : Nat → List Nat → Nat → Prop
  | a, [], z => nf a = z ∧ pf z = a
  | a, b :: l, z => nf a = b ∧ pf b = a ∧ linkSeq nf pf b l z

instance instDecidableLinkSeq (nf pf : Nat → Nat) :
    (a : Nat) → (l : List Nat) → (z : Nat) → Decidable (linkSeq nf pf a l z)
  | a, [], z => inferInstanceAs (Decidable (nf a = z ∧ pf z = a))
  | a, b :: l, z =>
    have : Decidable (linkSeq nf pf b l z) := instDecidableLinkSeq nf pf b l z
    inferInstanceAs (Decidable (nf a = b ∧ pf b = a ∧ linkSeq nf pf b l z))

/-- Last node of the nonempty node list `a :: l`. -/
def lastOf (a : Nat) : List Nat → Nat
  | [] => a
  | b :: l => lastOf b l

/-- separateChain(head, tail), translated statement by statement from the
header (the four pointer assignments execute in order, each reading the
current maps):
line 1: `head->prev_->next_ = tail->next_`;
line 2: `tail->next_->prev_ = head->prev_` (this re-reads `tail->next_`
after line 1 wrote to `head->prev_->next_`);
line 3: `head->prev_ = tail`;
line 4: `tail->next_ = head`.
The result is the pair (next map, prev map) after the call. -/
def separateChain (nf pf : Nat → Nat) (head tail : Nat) : (Nat → Nat) × (Nat → Nat) :=
  let n1 := Function.update nf (pf head) (nf tail)
  let p1 := Function.update pf (n1 tail) (pf head)
  let p2 := Function.update p1 head tail
  let n2 := Function.update n1 tail head
  (n2, p2)

/-- The iterator state: `pos_` and `end_` are nullable descriptor pointers
(`none` is null) and `val_` is the cached ByteRange, modelled as the pair
(begin address, end address).  A default-constructed ByteRange is (0, 0). -/
structure Iter where
  pos : Option Nat
  iend : Option Nat
  val : Nat × Nat

/-- setVal(): `val_ = ByteRange(pos_->data(), pos_->tail())`, reading the
data pointer and length of the node through the heap maps `dataOf` and
`lenOf`. -/
def setValOf (dataOf lenOf : Nat → Nat) (p : Nat) : Nat × Nat :=
  (dataOf p, dataOf p + lenOf p)

/-- The Iterator constructor: store `pos` and `end`, and if `pos` is non-null
cache its byte range. -/
def mkIter (dataOf lenOf : Nat → Nat) (pos e : Option Nat) : Iter :=
  { pos := pos
    iend := e
    val := match pos with
      | some p => setValOf dataOf lenOf p
      | none => (0, 0) }

/-- Iterator equality as in the source `equal`: compare both `pos_` and
`end_`. -/
def iterEqual (x y : Iter) : Prop := x.pos = y.pos ∧ x.iend = y.iend

instance (x y : Iter) : Decidable (iterEqual x y) :=
  inferInstanceAs (Decidable (_ ∧ _))

/-- increment(): `pos_ = pos_->next(); adjustForEnd();` where adjustForEnd
nulls both fields (and resets `val_`) once `pos_` reaches the stored end
sentinel, and otherwise caches the byte range of the new node.  Incrementing
an iterator whose `pos_` is null would dereference a null pointer in the
source; the model returns `none` for it. -/
def iterIncrement (nf dataOf lenOf : Nat → Nat) (it : Iter) : Option Iter :=
  match it.pos with
  | none => none
  | some p =>
    let p2 := nf p
    if some p2 = it.iend then
      some { pos := none, iend := none, val := (0, 0) }
    else
      some { pos := some p2, iend := it.iend, val := setValOf dataOf lenOf p2 }

/-- n-fold iterator increment. -/
def iterateN (nf dataOf lenOf : Nat → Nat) : Nat → Iter → Option Iter
  | 0, it => some it
  | n + 1, it => (iterIncrement nf dataOf lenOf it).bind (iterateN nf dataOf lenOf n)

/-- Modelled from the spec: cbegin and cend are declared in the header but
implemented in IOBuf.cpp, which is not part of src.  Per section 4.8 and the
comment block of the Iterator class, the begin iterator of a chain element
is the Iterator constructed with both pointers at that element, and the end
iterator is the one constructed with two null pointers. -/
def beginAt (dataOf lenOf : Nat → Nat) (x : Nat) : Iter :=
  mkIter dataOf lenOf (some x) (some x)

/-- Modelled from the spec: the canonical end iterator, Iterator(null, null). -/
def endIter (dataOf lenOf : Nat → Nat) : Iter :=
  mkIter dataOf lenOf none none

/-- Chain-level view of one descriptor for the gather model: its headroom,
valid length and tailroom. -/
structure SegNode where
  headroom : Nat
  length_ : Nat
  tailroom : Nat
deriving DecidableEq

/-- Total valid length of a node list. -/
def sumLen : List SegNode → Nat
  | [] => 0
  | x :: xs => x.length_ + sumLen xs

/-- Error kinds that gather and its slow path can raise. -/
inductive GatherError
  | Overflow
  | BadAlloc
deriving DecidableEq

/-- The do-while of the coalescing loop: split the chain into the minimal
nonempty prefix whose accumulated length reaches what is still needed, and
the remainder (consuming everything when the total never reaches it). -/
def gatherSplit (maxLength : Nat) : List SegNode → List SegNode × List SegNode
  | [] => ([], [])
  | x :: xs =>
    if maxLength ≤ x.length_ then ([x], xs)
    else
      let p := gatherSplit (maxLength - x.length_) xs
      (x :: p.1, p.2)

/-- Modelled from the spec: coalesceSlow(maxLength) is declared in the
header but implemented in IOBuf.cpp, which is not part of src.  Per spec
sections 4.6 (gather and coalesce_and_reallocate): walk the chain from self
accumulating lengths until the leading region reaches maxLength or the
chain is exhausted, then reallocate a single buffer of good_size(new
headroom + new length + new tailroom) keeping the headroom of self and the
tailroom of the last coalesced node, copy the consumed windows into it, and
splice out and destroy the consumed followers; a combined size beyond the
32-bit capacity bound raises Overflow and leaves the chain unchanged. -/
def coalesceSlow (maxLength : Nat) : List SegNode → Except GatherError (List SegNode)
  | [] => .ok []
  | x :: xs =>
    let consumed := (gatherSplit maxLength (x :: xs)).1
    let remaining := (gatherSplit maxLength (x :: xs)).2
    let newLength := sumLen consumed
    let newHeadroom := x.headroom
    let newTailroom := (consumed.getLastD x).tailroom
    if UINT32_MAX < newHeadroom + newLength + newTailroom then
      .error GatherError.Overflow
    else
      .ok ({ headroom := newHeadroom, length_ := newLength, tailroom := newTailroom } :: remaining)

/-- gather(maxLength), translated from the header: return immediately when
the descriptor is not chained or already holds maxLength bytes, otherwise
run the coalescing slow path.  The chain is the list of nodes in order
starting at self. -/
def gather (maxLength : Nat) : List SegNode → Except GatherError (List SegNode)
  | [] => .ok []
  | x :: xs =>
    if xs = [] ∨ maxLength ≤ x.length_ then .ok (x :: xs)
    else coalesceSlow maxLength (x :: xs)

/-- Concrete two-node chain used by the gather witness. -/
def c6Chain : List SegNode :=
  [{ headroom := 0, length_ := 5, tailroom := 0 },
   { headroom := 1, length_ := 7, tailroom := 2 }]

/-- Concrete next map of the circular chain on nodes 0,1,2,3,4, used by the
chain witnesses. -/
def cNext : Nat → Nat := fun n => (n + 1) % 5

/-- Concrete prev map of the circular chain on nodes 0,1,2,3,4, used by the
chain witnesses. -/
def cPrev : Nat → Nat := fun n => (n + 4) % 5

/-- The link maps after separating the subrange 2..3 out of the concrete
five-element chain. -/
def cSep : (Nat → Nat) × (Nat → Nat) := separateChain cNext cPrev 2 (lastOf 2 [3])

/-- Concrete next map of the circular chain on nodes 0,1,2, used by the
iterator witness. -/
def c8Next : Nat → Nat := fun n => (n + 1) % 3

/-- Concrete prev map of the circular chain on nodes 0,1,2, used by the
iterator witness. -/
def c8Prev : Nat → Nat := fun n => (n + 2) % 3

/-- Concrete data pointers of the nodes used by the iterator witness. -/
def c8Data : Nat → Nat := fun n => 10 * n + 1

/-- Concrete lengths of the nodes used by the iterator witness. -/
def c8Len : Nat → Nat := fun n => n + 2

/-- Concrete descriptor used by the witness of the share-detection theorem:
unique owner of its arena, with a stale MaybeShared hint set. -/
def w2Buf : IOBufM :=
  { selfId := 0
    next_ := 0
    prev_ := 0
    data_ := 0
    buf_ := 0
    length_ := 0
    capacity_ := 8
    flagUserOwned := false
    flagFreeSharedInfo := false
    flagMaybeShared := true
    type_ := ExtBufType.kExtAllocated
    sharedInfo_ := some 1
    mem := fun _ => 0 }

/-- Concrete descriptor used by the witnesses of the reslice theorems. -/
def wBuf : IOBufM :=
  { selfId := 0
    next_ := 0
    prev_ := 0
    data_ := 4
    buf_ := 0
    length_ := 3
    capacity_ := 16
    flagUserOwned := false
    flagFreeSharedInfo := false
    flagMaybeShared := false
    type_ := ExtBufType.kExtAllocated
    sharedInfo_ := some 1
    mem := fun a => a + 100 }

end IOBufModel

namespace IOBufModel

/-- Reading inside the destination window of a memmove yields the source
bytes. -/
theorem memmove_window (dst src len : Nat) (m : Nat → Nat) (i : Nat) (hi : i < len) :
    memmove dst src len m (dst + i) = m (src + i) := by
  simp only [memmove]
  rw [if_pos (by omega)]
  congr 1
  omega

/-- Reading inside the destination window of a memcpy yields the source
bytes. -/
theorem memcpy_window (dst : Nat) (src : Nat → Nat) (len : Nat) (m : Nat → Nat)
    (i : Nat) (hi : i < len) :
    memcpy dst src len m (dst + i) = src i := by
  simp only [memcpy]
  rw [if_pos (by omega)]
  congr 1
  omega

/-- When both asks are already satisfied, reserve takes its first fast path
and returns the descriptor unchanged. -/
theorem reserve_fast1_eq (b : IOBufM) (h t : Nat)
    (hh : h ≤ headroom b) (ht : t ≤ tailroom b) :
    reserve h t b = b := by
  simp only [reserve, if_pos (And.intro hh ht)]

/-- The last node of a nonempty list is one of its members. -/
theorem lastOf_mem (a : Nat) (l : List Nat) : lastOf a l ∈ a :: l := by
  induction l generalizing a with
  | nil => simp [lastOf]
  | cons b l ih => exact List.mem_cons_of_mem a (ih b)

/-- A linked path through an append splits at any interior node. -/
theorem linkSeq_append (nf pf : Nat → Nat) (b z : Nat) (l2 : List Nat) :
    ∀ (l1 : List Nat) (a : Nat),
      linkSeq nf pf a (l1 ++ b :: l2) z ↔
        (linkSeq nf pf a l1 b ∧ linkSeq nf pf b l2 z) := by
  intro l1
  induction l1 with
  | nil =>
    intro a
    simp [linkSeq, and_assoc]
  | cons c l1 ih =>
    intro a
    simp [linkSeq, ih c, and_assoc]

/-- A linked path determines the forward link out of its last node and the
back link into it. -/
theorem linkSeq_last (nf pf : Nat → Nat) :
    ∀ (l : List Nat) (a z : Nat),
      linkSeq nf pf a l z → nf (lastOf a l) = z ∧ pf z = lastOf a l := by
  intro l
  induction l with
  | nil => intro a z h; exact ⟨h.1, h.2⟩
  | cons b l ih => intro a z h; exact ih b z h.2.2

/-- A linked path is preserved by any pair of maps that agree with the
original ones on the nodes the path reads. -/
theorem linkSeq_congr (nf pf n2 p2 : Nat → Nat) :
    ∀ (l : List Nat) (a z : Nat),
      linkSeq nf pf a l z →
      (∀ u ∈ a :: l, n2 u = nf u) →
      (∀ u ∈ l ++ [z], p2 u = pf u) →
      linkSeq n2 p2 a l z := by
  intro l
  induction l with
  | nil =>
    intro a z h hn hp
    exact ⟨(hn a (by simp)).trans h.1, (hp z (by simp)).trans h.2⟩
  | cons b l ih =>
    intro a z h hn hp
    refine ⟨(hn a (by simp)).trans h.1, (hp b (by simp)).trans h.2.1, ?_⟩
    exact ih b z h.2.2
      (fun u hu => hn u (List.mem_cons_of_mem a hu))
      (fun u hu => hp u (List.mem_cons_of_mem b hu))

/-- Rerouting the exit of a linked path: new maps that keep the interior
links of a duplicate-free path but send its last node to a new target `w`
(with the matching back link) carry the path to `w`. -/
theorem linkSeq_retarget (nf pf n2 p2 : Nat → Nat) :
    ∀ (l : List Nat) (a z w : Nat),
      linkSeq nf pf a l z →
      (a :: l).Nodup →
      (∀ u ∈ a :: l, u ≠ lastOf a l → n2 u = nf u) →
      n2 (lastOf a l) = w →
      (∀ u ∈ l, p2 u = pf u) →
      p2 w = lastOf a l →
      linkSeq n2 p2 a l w := by
  intro l
  induction l with
  | nil =>
    intro a z w _ _ _ hlast _ hw
    exact ⟨hlast, hw⟩
  | cons b l ih =>
    intro a z w h hnd hn hlast hp hw
    have hne : a ≠ lastOf b l := by
      have hmem : lastOf b l ∈ b :: l := lastOf_mem b l
      have hnin : a ∉ b :: l := (List.nodup_cons.mp hnd).1
      intro he
      rw [he] at hnin
      exact hnin hmem
    refine ⟨(hn a (by simp) hne).trans h.1, (hp b (by simp)).trans h.2.1, ?_⟩
    exact ih b z w h.2.2 (List.nodup_cons.mp hnd).2
      (fun u hu hne2 => hn u (List.mem_cons_of_mem a hu) hne2)
      hlast
      (fun u hu => hp u (List.mem_cons_of_mem b hu))
      hw

/-- Along a linked path, prev of next is the identity on the sources of the
forward links, and next of prev is the identity on their targets. -/
theorem linkSeq_roundtrip (nf pf : Nat → Nat) :
    ∀ (l : List Nat) (a z : Nat),
      linkSeq nf pf a l z →
      (∀ u ∈ a :: l, pf (nf u) = u) ∧ (∀ u ∈ l ++ [z], nf (pf u) = u) := by
  intro l
  induction l with
  | nil =>
    intro a z h
    constructor
    · intro u hu
      have he : u = a := by simpa using hu
      subst he
      rw [h.1, h.2]
    · intro u hu
      have he : u = z := by simpa using hu
      subst he
      rw [h.2, h.1]
  | cons b l ih =>
    intro a z h
    obtain ⟨h1, h2, h3⟩ := h
    obtain ⟨ih1, ih2⟩ := ih b z h3
    constructor
    · intro u hu
      rcases List.mem_cons.mp hu with he | hu2
      · subst he
        rw [h1, h2]
      · exact ih1 u hu2
    · intro u hu
      rcases List.mem_cons.mp hu with he | hu2
      · subst he
        rw [h2, h1]
      · exact ih2 u hu2

/-- On a circular chain, every member satisfies both roundtrip identities. -/
theorem linkSeq_cycle_roundtrip (nf pf : Nat → Nat) (a : Nat) (l : List Nat)
    (h : linkSeq nf pf a l a) :
    ∀ u ∈ a :: l, pf (nf u) = u ∧ nf (pf u) = u := by
  obtain ⟨h1, h2⟩ := linkSeq_roundtrip nf pf l a a h
  intro u hu
  refine ⟨h1 u hu, h2 u ?_⟩
  rcases List.mem_cons.mp hu with he | hm
  · subst he
    exact List.mem_append_right _ (by simp)
  · exact List.mem_append_left _ hm

/-- Claim C1 (amended): on a descriptor satisfying the buffer invariant, each
reslice operation invoked under its stated precondition (advance with
n ≤ tailroom, retreat with n ≤ headroom, prepend with n ≤ headroom, append
with n ≤ tailroom, trimStart and trimEnd with n ≤ length, clear
unconditionally, and the two fast paths of reserve provided the requested
minHeadroom + minTailroom is below 2^32) leaves the descriptor satisfying
the invariant again. -/
theorem c1_reslice_preserves_invariant (b : IOBufM) (hinv : invariant b) :
    (∀ n, n ≤ tailroom b → invariant (advance n b)) ∧
    (∀ n, n ≤ headroom b → invariant (retreat n b)) ∧
    (∀ n, n ≤ headroom b → invariant (prepend n b)) ∧
    (∀ n, n ≤ tailroom b → invariant (append n b)) ∧
    (∀ n, n ≤ b.length_ → invariant (trimStart n b)) ∧
    (∀ n, n ≤ b.length_ → invariant (trimEnd n b)) ∧
    invariant (clear b) ∧
    (∀ h t, h + t < UINT32_LIMIT → reserveFastPath h t b →
      invariant (reserve h t b)) := by
  obtain ⟨h1, h2⟩ := hinv
  refine ⟨?_, ?_, ?_, ?_, ?_, ?_, ?_, ?_⟩
  · intro n hn
    simp only [invariant, advance, headroom, tailroom] at *
    omega
  · intro n hn
    simp only [invariant, retreat, headroom, tailroom] at *
    omega
  · intro n hn
    simp only [invariant, prepend, headroom, tailroom] at *
    omega
  · intro n hn
    simp only [invariant, append, headroom, tailroom] at *
    omega
  · intro n hn
    simp only [invariant, trimStart, headroom, tailroom] at *
    omega
  · intro n hn
    simp only [invariant, trimEnd, headroom, tailroom] at *
    omega
  · simp only [invariant, clear]
    omega
  · intro h t hov hfp
    have hmod : (h + t) % UINT32_LIMIT = h + t := Nat.mod_eq_of_lt hov
    rcases hfp with hfp | hfp
    · simp only [reserve, if_pos hfp, invariant]
      exact ⟨h1, h2⟩
    · by_cases hfast1 : h ≤ headroom b ∧ t ≤ tailroom b
      · simp only [reserve, if_pos hfast1, invariant]
        exact ⟨h1, h2⟩
      · obtain ⟨hlen, hroom⟩ := hfp
        simp only [reserve, if_neg hfast1, if_pos (And.intro hlen hroom)]
        rw [hmod] at hroom
        simp only [invariant, headroom, tailroom] at *
        omega

/-- Witness for C1 at a concrete descriptor. -/
theorem c1_witness :
    invariant wBuf ∧ 2 ≤ tailroom wBuf ∧ 3 + 3 < UINT32_LIMIT ∧
      reserveFastPath 3 3 wBuf ∧
      invariant (advance 2 wBuf) ∧ invariant (reserve 3 3 wBuf) :=
  ⟨by decide, by decide, by decide, by decide,
   (c1_reslice_preserves_invariant wBuf (by decide)).1 2 (by decide),
   (c1_reslice_preserves_invariant wBuf (by decide)).2.2.2.2.2.2.2 3 3 (by decide) (by decide)⟩

/-- Counterexample for C1 as stated: on a valid empty descriptor of capacity
0, the second fast path of reserve is taken for the asks (2^32 - 1, 1)
because their uint32 sum wraps to 0, and the resulting descriptor violates
the buffer invariant. -/
theorem c1_counterexample :
    invariant cxBuf ∧ reserveFastPath 4294967295 1 cxBuf ∧
      ¬ invariant (reserve 4294967295 1 cxBuf) := by
  decide

/-- Claim C3: advance(n) under the precondition n ≤ tailroom keeps the length
unchanged, increases the headroom by exactly n, decreases the tailroom by
exactly n, moves data_ forward by n, and the bytes of the valid window are
the same before and after the call. -/
theorem c3_advance_window (b : IOBufM) (n : Nat)
    (hinv : invariant b) (hn : n ≤ tailroom b) :
    (advance n b).length_ = b.length_ ∧
    headroom (advance n b) = headroom b + n ∧
    tailroom (advance n b) + n = tailroom b ∧
    (advance n b).data_ = b.data_ + n ∧
    (∀ i, i < b.length_ →
      (advance n b).mem ((advance n b).data_ + i) = b.mem (b.data_ + i)) := by
  obtain ⟨h1, h2⟩ := hinv
  refine ⟨rfl, ?_, ?_, rfl, ?_⟩
  · simp only [advance, headroom] at *
    omega
  · simp only [advance, tailroom, headroom] at *
    omega
  · intro i hi
    simp only [advance]
    have hpos : 0 < b.length_ := Nat.lt_of_le_of_lt (Nat.zero_le i) hi
    rw [if_pos hpos]
    simp only [memmove]
    rw [if_pos (by omega)]
    congr 1
    omega

/-- Witness for C3 at a concrete descriptor. -/
theorem c3_witness :
    invariant wBuf ∧ 2 ≤ tailroom wBuf ∧
      ((advance 2 wBuf).length_ = wBuf.length_ ∧
        headroom (advance 2 wBuf) = headroom wBuf + 2 ∧
        tailroom (advance 2 wBuf) + 2 = tailroom wBuf ∧
        (advance 2 wBuf).data_ = wBuf.data_ + 2 ∧
        (∀ i, i < wBuf.length_ →
          (advance 2 wBuf).mem ((advance 2 wBuf).data_ + i) = wBuf.mem (wBuf.data_ + i))) :=
  ⟨by decide, by decide, c3_advance_window wBuf 2 (by decide) (by decide)⟩

/-- Claim C4 (amended): on a descriptor satisfying the invariant and asks
with h + t below 2^32, reserve(h, t) satisfies both asks, preserves the
length and the bytes of the valid window, and any subsequent reserve with
smaller or equal asks is a no-op returning the descriptor unchanged. -/
theorem c4_reserve_idempotent_monotonic (b : IOBufM) (h t : Nat)
    (hinv : invariant b) (hov : h + t < UINT32_LIMIT) :
    h ≤ headroom (reserve h t b) ∧
    t ≤ tailroom (reserve h t b) ∧
    (reserve h t b).length_ = b.length_ ∧
    (∀ i, i < b.length_ →
      (reserve h t b).mem ((reserve h t b).data_ + i) = b.mem (b.data_ + i)) ∧
    (∀ h2 t2, h2 ≤ headroom (reserve h t b) → t2 ≤ tailroom (reserve h t b) →
      reserve h2 t2 (reserve h t b) = reserve h t b) := by
  obtain ⟨hb1, hb2⟩ := hinv
  have hmod : (h + t) % UINT32_LIMIT = h + t := Nat.mod_eq_of_lt hov
  by_cases hf1 : h ≤ headroom b ∧ t ≤ tailroom b
  · have he : reserve h t b = b := reserve_fast1_eq b h t hf1.1 hf1.2
    rw [he]
    exact ⟨hf1.1, hf1.2, rfl, fun i _ => rfl,
      fun h2 t2 hh2 ht2 => reserve_fast1_eq b h2 t2 hh2 ht2⟩
  · by_cases hf2 : b.length_ = 0 ∧ (h + t) % UINT32_LIMIT ≤ headroom b + tailroom b
    · have he : reserve h t b = { b with data_ := b.buf_ + h } := by
        simp only [reserve, if_neg hf1, if_pos hf2]
      obtain ⟨hlen, hroom⟩ := hf2
      rw [hmod] at hroom
      rw [he]
      refine ⟨?_, ?_, rfl, ?_, fun h2 t2 hh2 ht2 => reserve_fast1_eq _ h2 t2 hh2 ht2⟩
      · simp only [headroom]
        omega
      · simp only [tailroom, headroom] at *
        omega
      · intro i hi
        omega
    · have he : reserve h t b = reserveSlow h t b := by
        simp only [reserve, if_neg hf1, if_neg hf2]
      by_cases hc : h + b.length_ + t ≤ b.capacity_
      · have he2 : reserve h t b =
            { b with
              mem := memmove (b.buf_ + h) b.data_ b.length_ b.mem,
              data_ := b.buf_ + h } := by
          rw [he]
          simp only [reserveSlow, if_pos hc]
        rw [he2]
        refine ⟨?_, ?_, rfl, ?_, fun h2 t2 hh2 ht2 => reserve_fast1_eq _ h2 t2 hh2 ht2⟩
        · simp only [headroom]
          omega
        · simp only [tailroom] at *
          omega
        · intro i hi
          exact memmove_window (b.buf_ + h) b.data_ b.length_ b.mem i hi
      · have he2 : reserve h t b =
            { b with
              mem := memmove (b.buf_ + h) b.data_ b.length_ b.mem,
              data_ := b.buf_ + h,
              capacity_ := h + b.length_ + t } := by
          rw [he]
          simp only [reserveSlow, if_neg hc]
        rw [he2]
        refine ⟨?_, ?_, rfl, ?_, fun h2 t2 hh2 ht2 => reserve_fast1_eq _ h2 t2 hh2 ht2⟩
        · simp only [headroom]
          omega
        · simp only [tailroom] at *
          omega
        · intro i hi
          exact memmove_window (b.buf_ + h) b.data_ b.length_ b.mem i hi

/-- Witness for C4 at a concrete descriptor. -/
theorem c4_witness :
    invariant wBuf ∧ 6 + 2 < UINT32_LIMIT ∧
      (6 ≤ headroom (reserve 6 2 wBuf) ∧
        2 ≤ tailroom (reserve 6 2 wBuf) ∧
        (reserve 6 2 wBuf).length_ = wBuf.length_ ∧
        (∀ i, i < wBuf.length_ →
          (reserve 6 2 wBuf).mem ((reserve 6 2 wBuf).data_ + i) = wBuf.mem (wBuf.data_ + i)) ∧
        (∀ h2 t2, h2 ≤ headroom (reserve 6 2 wBuf) → t2 ≤ tailroom (reserve 6 2 wBuf) →
          reserve h2 t2 (reserve 6 2 wBuf) = reserve 6 2 wBuf)) :=
  ⟨by decide, by decide, c4_reserve_idempotent_monotonic wBuf 6 2 (by decide) (by decide)⟩

/-- Counterexample for C4 as stated: on a valid, unshared, empty descriptor
of capacity 0, reserve(2^32 - 1, 1) returns through the second fast path
because the uint32 sum of the asks wraps to 0, yet afterwards the tailroom
ask is not satisfied. -/
theorem c4_counterexample :
    invariant cxBuf ∧ isSharedOne cxBuf = some (false, cxBuf) ∧
      ¬ (1 ≤ tailroom (reserve 4294967295 1 cxBuf)) :=
  ⟨by decide, rfl, by decide⟩

/-- Claim C5: on a well-formed circular chain whose members in order are
self, then A, then the contiguous subrange head :: R (whose last node is the
tail argument), then B, separateChain(head, tail) produces link maps under
which the separated nodes form a circular chain with exactly head :: R in
their original order, the remaining nodes form a circular chain with exactly
self :: A ++ B in their original order, and every member of either chain
satisfies next(prev(x)) = x = prev(next(x)). -/
theorem c5_separateChain_correct (nf pf n2 p2 : Nat → Nat) (s hd : Nat)
    (A R B : List Nat)
    (hnd : (s :: (A ++ (hd :: R) ++ B)).Nodup)
    (hchain : linkSeq nf pf s (A ++ (hd :: R) ++ B) s)
    (hsep : separateChain nf pf hd (lastOf hd R) = (n2, p2)) :
    linkSeq n2 p2 hd R hd ∧
    linkSeq n2 p2 s (A ++ B) s ∧
    (∀ u ∈ hd :: R, p2 (n2 u) = u ∧ n2 (p2 u) = u) ∧
    (∀ u ∈ s :: (A ++ B), p2 (n2 u) = u ∧ n2 (p2 u) = u) := by
  -- Nodup bookkeeping: the chain splits into the segments X = s :: A,
  -- Y = hd :: R and Z = B, pairwise disjoint and individually duplicate-free.
  have hnd2 : ((s :: A) ++ ((hd :: R) ++ B)).Nodup := by
    have h0 := hnd
    rw [List.append_assoc] at h0
    exact h0
  rw [List.nodup_append] at hnd2
  obtain ⟨hndX, hndYZ0, hdisjX⟩ := hnd2
  rw [List.nodup_append] at hndYZ0
  obtain ⟨hndY, hndZ, hdisjYZ⟩ := hndYZ0
  have hXY : ∀ u ∈ s :: A, ∀ v ∈ hd :: R, u ≠ v := by
    intro u hu v hv he
    subst he
    exact hdisjX hu (List.mem_append_left _ hv)
  have hXZ : ∀ u ∈ s :: A, ∀ v ∈ B, u ≠ v := by
    intro u hu v hv he
    subst he
    exact hdisjX hu (List.mem_append_right _ hv)
  have hYZ : ∀ u ∈ hd :: R, ∀ v ∈ B, u ≠ v := by
    intro u hu v hv he
    subst he
    exact hdisjYZ hu hv
  have htlY : lastOf hd R ∈ hd :: R := lastOf_mem hd R
  have hlsX : lastOf s A ∈ s :: A := lastOf_mem s A
  have hhdRnin : hd ∉ R := (List.nodup_cons.mp hndY).1
  -- Decompose the original chain around head.
  have hsplit : linkSeq nf pf s A hd ∧ linkSeq nf pf hd (R ++ B) s := by
    have h0 := hchain
    rw [List.append_assoc] at h0
    exact (linkSeq_append nf pf hd s (R ++ B) A s).mp h0
  obtain ⟨hA, hRB⟩ := hsplit
  have hlastA := linkSeq_last nf pf A s hd hA
  -- pf hd is the last node before head; it lies in X, away from the range.
  have hpfhd_ne_tl : pf hd ≠ lastOf hd R := by
    rw [hlastA.2]
    exact hXY (lastOf s A) hlsX (lastOf hd R) htlY
  -- The four pointer writes of separateChain, as function updates.
  have hn2eq : n2 =
      Function.update (Function.update nf (pf hd) (nf (lastOf hd R))) (lastOf hd R) hd :=
    (congrArg Prod.fst hsep).symm
  have hp2eq : p2 =
      Function.update
        (Function.update pf
          (Function.update nf (pf hd) (nf (lastOf hd R)) (lastOf hd R)) (pf hd))
        hd (lastOf hd R) :=
    (congrArg Prod.snd hsep).symm
  have hn1tl : Function.update nf (pf hd) (nf (lastOf hd R)) (lastOf hd R) =
      nf (lastOf hd R) :=
    Function.update_noteq (Ne.symm hpfhd_ne_tl) _ _
  rw [hn1tl] at hp2eq
  have hn2_other : ∀ u, u ≠ lastOf hd R → u ≠ pf hd → n2 u = nf u := by
    intro u h1 h2
    rw [hn2eq, Function.update_noteq h1, Function.update_noteq h2]
  have hn2_tl : n2 (lastOf hd R) = hd := by
    rw [hn2eq, Function.update_same]
  have hn2_hp : n2 (pf hd) = nf (lastOf hd R) := by
    rw [hn2eq, Function.update_noteq hpfhd_ne_tl, Function.update_same]
  have hp2_other : ∀ u, u ≠ hd → u ≠ nf (lastOf hd R) → p2 u = pf u := by
    intro u h1 h2
    rw [hp2eq, Function.update_noteq h1, Function.update_noteq h2]
  have hp2_hd : p2 hd = lastOf hd R := by
    rw [hp2eq, Function.update_same]
  have hp2_tn : nf (lastOf hd R) ≠ hd → p2 (nf (lastOf hd R)) = pf hd := by
    intro h1
    rw [hp2eq, Function.update_noteq h1, Function.update_same]
  cases B with
  | nil =>
    rw [List.append_nil] at hRB
    have hlastR := linkSeq_last nf pf R hd s hRB
    have hs_ne_hd : s ≠ hd := hXY s (by simp) hd (by simp)
    have htn_ne : nf (lastOf hd R) ≠ hd := by
      rw [hlastR.1]
      exact hs_ne_hd
    have hg1 : linkSeq n2 p2 hd R hd := by
      apply linkSeq_retarget nf pf n2 p2 R hd s hd hRB hndY
      · intro u hu hne
        apply hn2_other u hne
        rw [hlastA.2]
        exact (hXY (lastOf s A) hlsX u hu).symm
      · exact hn2_tl
      · intro u hu
        apply hp2_other u
        · intro he
          rw [he] at hu
          exact hhdRnin hu
        · rw [hlastR.1]
          exact (hXY s (by simp) u (List.mem_cons_of_mem hd hu)).symm
      · exact hp2_hd
    have hg2A : linkSeq n2 p2 s A s := by
      apply linkSeq_retarget nf pf n2 p2 A s hd s hA hndX
      · intro u hu hne
        apply hn2_other u (hXY u hu (lastOf hd R) htlY)
        rw [hlastA.2]
        exact hne
      · rw [← hlastA.2, hn2_hp, hlastR.1]
      · intro u hu
        apply hp2_other u
        · exact hXY u (List.mem_cons_of_mem s hu) hd (by simp)
        · rw [hlastR.1]
          have hsA : s ∉ A := (List.nodup_cons.mp hndX).1
          intro he
          rw [he] at hu
          exact hsA hu
      · have hps : p2 (nf (lastOf hd R)) = pf hd := hp2_tn htn_ne
        rw [hlastR.1] at hps
        rw [hps, hlastA.2]
    have hg2 : linkSeq n2 p2 s (A ++ []) s := by
      rw [List.append_nil]
      exact hg2A
    exact ⟨hg1, hg2, linkSeq_cycle_roundtrip n2 p2 hd R hg1,
      linkSeq_cycle_roundtrip n2 p2 s (A ++ []) hg2⟩
  | cons b0 B2 =>
    obtain ⟨hRb, hB2⟩ := (linkSeq_append nf pf b0 s B2 R hd).mp hRB
    have hlastR := linkSeq_last nf pf R hd b0 hRb
    have hb0Z : b0 ∈ b0 :: B2 := by simp
    have htn_ne : nf (lastOf hd R) ≠ hd := by
      rw [hlastR.1]
      exact (hYZ hd (by simp) b0 hb0Z).symm
    have hg1 : linkSeq n2 p2 hd R hd := by
      apply linkSeq_retarget nf pf n2 p2 R hd b0 hd hRb hndY
      · intro u hu hne
        apply hn2_other u hne
        rw [hlastA.2]
        exact (hXY (lastOf s A) hlsX u hu).symm
      · exact hn2_tl
      · intro u hu
        apply hp2_other u
        · intro he
          rw [he] at hu
          exact hhdRnin hu
        · rw [hlastR.1]
          exact hYZ u (List.mem_cons_of_mem hd hu) b0 hb0Z
      · exact hp2_hd
    have hg2 : linkSeq n2 p2 s (A ++ b0 :: B2) s := by
      apply (linkSeq_append n2 p2 b0 s B2 A s).mpr
      constructor
      · apply linkSeq_retarget nf pf n2 p2 A s hd b0 hA hndX
        · intro u hu hne
          apply hn2_other u (hXY u hu (lastOf hd R) htlY)
          rw [hlastA.2]
          exact hne
        · rw [← hlastA.2, hn2_hp, hlastR.1]
        · intro u hu
          apply hp2_other u
          · exact hXY u (List.mem_cons_of_mem s hu) hd (by simp)
          · rw [hlastR.1]
            exact hXZ u (List.mem_cons_of_mem s hu) b0 hb0Z
        · have hps : p2 (nf (lastOf hd R)) = pf hd := hp2_tn htn_ne
          rw [hlastR.1] at hps
          rw [hps, hlastA.2]
      · apply linkSeq_congr nf pf n2 p2 B2 b0 s hB2
        · intro u hu
          apply hn2_other u
          · exact (hYZ (lastOf hd R) htlY u hu).symm
          · rw [hlastA.2]
            exact (hXZ (lastOf s A) hlsX u hu).symm
        · intro u hu
          rcases List.mem_append.mp hu with hu2 | hu2
          · apply hp2_other u
            · exact (hYZ hd (by simp) u (List.mem_cons_of_mem b0 hu2)).symm
            · rw [hlastR.1]
              have hb0nin : b0 ∉ B2 := (List.nodup_cons.mp hndZ).1
              intro he
              rw [he] at hu2
              exact hb0nin hu2
          · have he : u = s := by simpa using hu2
            rw [he]
            apply hp2_other s
            · exact hXY s (by simp) hd (by simp)
            · rw [hlastR.1]
              exact hXZ s (by simp) b0 hb0Z
    exact ⟨hg1, hg2, linkSeq_cycle_roundtrip n2 p2 hd R hg1,
      linkSeq_cycle_roundtrip n2 p2 s (A ++ b0 :: B2) hg2⟩

/-- Witness for C5 on the concrete five-element circular chain 0,1,2,3,4,
separating the subrange 2..3 away from self node 0. -/
theorem c5_witness :
    (0 :: ([1] ++ (2 :: [3]) ++ [4])).Nodup ∧
    linkSeq cNext cPrev 0 ([1] ++ (2 :: [3]) ++ [4]) 0 ∧
    separateChain cNext cPrev 2 (lastOf 2 [3]) = (cSep.1, cSep.2) ∧
    (linkSeq cSep.1 cSep.2 2 [3] 2 ∧
      linkSeq cSep.1 cSep.2 0 ([1] ++ [4]) 0 ∧
      (∀ u ∈ 2 :: [3], cSep.2 (cSep.1 u) = u ∧ cSep.1 (cSep.2 u) = u) ∧
      (∀ u ∈ 0 :: ([1] ++ [4]), cSep.2 (cSep.1 u) = u ∧ cSep.1 (cSep.2 u) = u)) :=
  ⟨by decide, by decide, rfl,
    c5_separateChain_correct cNext cPrev cSep.1 cSep.2 0 2 [1] [3] [4]
      (by decide) (by decide) rfl⟩

/-- Claim C2: isSharedOne returns true exactly when the UserOwned flag is
set, or the MaybeShared flag is set and the arena refcount exceeds 1; and
when the refcount is observed to be 1 it clears MaybeShared before
returning false.  The hypothesis is the data-model invariant that a null
sharedInfo implies UserOwned. -/
theorem c2_isSharedOne_spec (b : IOBufM)
    (hwf : b.flagUserOwned = false → b.sharedInfo_ ≠ none) :
    ∃ res b2, isSharedOne b = some (res, b2) ∧
      (res = true ↔
        (b.flagUserOwned = true ∨
          (b.flagMaybeShared = true ∧ 1 < b.sharedInfo_.getD 0))) ∧
      ((b.flagUserOwned = false ∧ b.flagMaybeShared = true ∧ b.sharedInfo_.getD 0 = 1) →
        res = false ∧ b2.flagMaybeShared = false) := by
  cases hu : b.flagUserOwned with
  | true =>
    refine ⟨true, b, ?_, ?_, ?_⟩
    · simp [isSharedOne, hu]
    · simp [hu]
    · intro hcl
      exact absurd hcl.1 (by simp)
  | false =>
    obtain ⟨rc, hsi⟩ : ∃ rc, b.sharedInfo_ = some rc := by
      cases hsome : b.sharedInfo_ with
      | none => exact absurd hsome (hwf hu)
      | some rc => exact ⟨rc, rfl⟩
    cases hm : b.flagMaybeShared with
    | false =>
      refine ⟨false, b, ?_, ?_, ?_⟩
      · simp [isSharedOne, hu, hm]
      · simp [hu, hm]
      · intro hcl
        exact absurd hcl.2.1 (by simp)
    | true =>
      by_cases hrc : 1 < rc
      · refine ⟨true, b, ?_, ?_, ?_⟩
        · simp [isSharedOne, hu, hm, hsi, hrc]
        · simp [hu, hm, hsi, hrc]
        · intro hcl
          rw [hsi] at hcl
          simp only [Option.getD_some] at hcl
          omega
      · refine ⟨false, { b with flagMaybeShared := false }, ?_, ?_, ?_⟩
        · simp [isSharedOne, hu, hm, hsi, hrc]
        · simp [hu, hm, hsi, hrc]
        · intro _
          exact ⟨rfl, rfl⟩

/-- Witness for C2 at a concrete descriptor whose MaybeShared hint is stale
(refcount 1). -/
theorem c2_witness :
    (w2Buf.flagUserOwned = false → w2Buf.sharedInfo_ ≠ none) ∧
      (∃ res b2, isSharedOne w2Buf = some (res, b2) ∧
        (res = true ↔
          (w2Buf.flagUserOwned = true ∨
            (w2Buf.flagMaybeShared = true ∧ 1 < w2Buf.sharedInfo_.getD 0))) ∧
        ((w2Buf.flagUserOwned = false ∧ w2Buf.flagMaybeShared = true ∧
            w2Buf.sharedInfo_.getD 0 = 1) →
          res = false ∧ b2.flagMaybeShared = false)) :=
  ⟨by decide, c2_isSharedOne_spec w2Buf (by decide)⟩

/-- Claim C9: a default-constructed descriptor is a singleton chain with
null data and buffer, zero length and capacity, a null sharedInfo pointer
and the UserOwned flag set, and isSharedOne on it returns true without
touching it. -/
theorem c9_default_constructed (id : Nat) :
    (defaultIOBuf id).next_ = id ∧ (defaultIOBuf id).prev_ = id ∧
    (defaultIOBuf id).selfId = id ∧
    (defaultIOBuf id).data_ = 0 ∧ (defaultIOBuf id).buf_ = 0 ∧
    (defaultIOBuf id).length_ = 0 ∧ (defaultIOBuf id).capacity_ = 0 ∧
    (defaultIOBuf id).sharedInfo_ = none ∧
    (defaultIOBuf id).flagUserOwned = true ∧
    isSharedOne (defaultIOBuf id) = some (true, defaultIOBuf id) :=
  ⟨rfl, rfl, rfl, rfl, rfl, rfl, rfl, rfl, rfl, rfl⟩

/-- Claim C10: copyBuffer computes the arena capacity it requests as the
uint32 sum headroom + size + minTailroom, wrapping modulo 2^32, and the
resulting capacity always fits a uint32 (no overflow error arises inside
copyBuffer). -/
theorem c10_copyBuffer_capacity_wraps (id base : Nat) (dataSrc : Nat → Nat)
    (size hr mt : Nat) :
    (copyBuffer id base dataSrc size hr mt).capacity_ = (hr + size + mt) % UINT32_LIMIT ∧
    (copyBuffer id base dataSrc size hr mt).capacity_ < UINT32_LIMIT :=
  ⟨rfl, by
    have : (hr + size + mt) % UINT32_LIMIT < UINT32_LIMIT :=
      Nat.mod_lt _ (by simp [UINT32_LIMIT])
    simpa [copyBuffer, create, advance, append] using this⟩

/-- Claim C7 (amended): for inputs whose true sum headroom + size +
minTailroom stays below 2^32, copyBuffer returns a singleton descriptor
over a freshly Allocated arena of capacity at least headroom + size +
minTailroom, with data = buf + headroom, length = size, and the valid
window holding exactly the input bytes. -/
theorem c7_copyBuffer_roundtrip (id base : Nat) (dataSrc : Nat → Nat)
    (size hr mt : Nat) (hov : hr + size + mt < UINT32_LIMIT) :
    (copyBuffer id base dataSrc size hr mt).next_ = (copyBuffer id base dataSrc size hr mt).selfId ∧
    (copyBuffer id base dataSrc size hr mt).prev_ = (copyBuffer id base dataSrc size hr mt).selfId ∧
    (copyBuffer id base dataSrc size hr mt).type_ = ExtBufType.kExtAllocated ∧
    hr + size + mt ≤ (copyBuffer id base dataSrc size hr mt).capacity_ ∧
    (copyBuffer id base dataSrc size hr mt).data_ =
      (copyBuffer id base dataSrc size hr mt).buf_ + hr ∧
    (copyBuffer id base dataSrc size hr mt).length_ = size ∧
    (∀ i, i < size →
      (copyBuffer id base dataSrc size hr mt).mem
        ((copyBuffer id base dataSrc size hr mt).data_ + i) = dataSrc i) := by
  have hcap : (copyBuffer id base dataSrc size hr mt).capacity_ =
      (hr + size + mt) % UINT32_LIMIT := rfl
  have hmem : (copyBuffer id base dataSrc size hr mt).mem =
      memcpy (base + hr) dataSrc size (fun _ => 0) := rfl
  have hdata : (copyBuffer id base dataSrc size hr mt).data_ = base + hr := rfl
  refine ⟨rfl, rfl, rfl, ?_, rfl, ?_, ?_⟩
  · rw [hcap, Nat.mod_eq_of_lt hov]
  · show 0 + size = size
    omega
  · intro i hi
    rw [hmem, hdata]
    exact memcpy_window (base + hr) dataSrc size (fun _ => 0) i hi

/-- Witness for C7 at concrete inputs. -/
theorem c7_witness :
    2 + 3 + 4 < UINT32_LIMIT ∧
      ((copyBuffer 5 10 (fun i => i + 7) 3 2 4).next_ =
          (copyBuffer 5 10 (fun i => i + 7) 3 2 4).selfId ∧
        (copyBuffer 5 10 (fun i => i + 7) 3 2 4).prev_ =
          (copyBuffer 5 10 (fun i => i + 7) 3 2 4).selfId ∧
        (copyBuffer 5 10 (fun i => i + 7) 3 2 4).type_ = ExtBufType.kExtAllocated ∧
        2 + 3 + 4 ≤ (copyBuffer 5 10 (fun i => i + 7) 3 2 4).capacity_ ∧
        (copyBuffer 5 10 (fun i => i + 7) 3 2 4).data_ =
          (copyBuffer 5 10 (fun i => i + 7) 3 2 4).buf_ + 2 ∧
        (copyBuffer 5 10 (fun i => i + 7) 3 2 4).length_ = 3 ∧
        (∀ i, i < 3 →
          (copyBuffer 5 10 (fun i => i + 7) 3 2 4).mem
            ((copyBuffer 5 10 (fun i => i + 7) 3 2 4).data_ + i) = i + 7)) :=
  ⟨by decide, c7_copyBuffer_roundtrip 5 10 (fun i => i + 7) 3 2 4 (by decide)⟩

/-- When the coalescing split leaves a remainder, the consumed prefix has
reached the requested length. -/
theorem gatherSplit_reaches :
    ∀ (l : List SegNode) (m : Nat),
      (gatherSplit m l).2 ≠ [] → m ≤ sumLen (gatherSplit m l).1 := by
  intro l
  induction l with
  | nil =>
    intro m h
    simp [gatherSplit] at h
  | cons x xs ih =>
    intro m h
    by_cases hc : m ≤ x.length_
    · simp only [gatherSplit, if_pos hc, sumLen]
      omega
    · simp only [gatherSplit, if_neg hc] at h ⊢
      have h2 := ih (m - x.length_) h
      simp only [sumLen]
      omega

/-- Claim C6: whenever gather(maxLength) returns without an error, the
resulting chain either has a leading node holding at least maxLength bytes
or has become a singleton; and when the chain is already a singleton or its
head already holds maxLength bytes, gather returns the chain completely
unchanged. -/
theorem c6_gather_postcondition (maxLength : Nat) (c : List SegNode) (hne : c ≠ []) :
    (∀ r, gather maxLength c = .ok r →
      ∃ y ys, r = y :: ys ∧ (maxLength ≤ y.length_ ∨ ys = [])) ∧
    ((c.length = 1 ∨ ∃ y ys, c = y :: ys ∧ maxLength ≤ y.length_) →
      gather maxLength c = .ok c) := by
  match c with
  | [] => exact absurd rfl hne
  | x :: xs =>
    constructor
    · intro r hr
      by_cases hg : xs = [] ∨ maxLength ≤ x.length_
      · simp only [gather, if_pos hg] at hr
        have hre : r = x :: xs := by
          cases hr
          rfl
        subst hre
        rcases hg with hg | hg
        · exact ⟨x, xs, rfl, Or.inr hg⟩
        · exact ⟨x, xs, rfl, Or.inl hg⟩
      · simp only [gather, if_neg hg] at hr
        simp only [coalesceSlow] at hr
        by_cases hov : UINT32_MAX <
            x.headroom + sumLen (gatherSplit maxLength (x :: xs)).1 +
              ((gatherSplit maxLength (x :: xs)).1.getLastD x).tailroom
        · rw [if_pos hov] at hr
          cases hr
        · rw [if_neg hov] at hr
          have hre : r =
              { headroom := x.headroom,
                length_ := sumLen (gatherSplit maxLength (x :: xs)).1,
                tailroom := ((gatherSplit maxLength (x :: xs)).1.getLastD x).tailroom } ::
                (gatherSplit maxLength (x :: xs)).2 := by
            cases hr
            rfl
          subst hre
          refine ⟨_, _, rfl, ?_⟩
          by_cases hrem : (gatherSplit maxLength (x :: xs)).2 = []
          · exact Or.inr hrem
          · exact Or.inl (gatherSplit_reaches (x :: xs) maxLength hrem)
    · intro hcase
      have hg : xs = [] ∨ maxLength ≤ x.length_ := by
        rcases hcase with h1 | ⟨y, ys, heq, hlen⟩
        · left
          have h2 : xs.length = 0 := by simpa using h1
          exact List.length_eq_zero.mp h2
        · right
          injection heq with he1 he2
          rw [he1]
          exact hlen
      simp only [gather, if_pos hg]

/-- Witness for C6 on a concrete two-node chain gathered to 10 bytes. -/
theorem c6_witness :
    c6Chain ≠ [] ∧
      (∀ r, gather 10 c6Chain = .ok r →
        ∃ y ys, r = y :: ys ∧ (10 ≤ y.length_ ∨ ys = [])) ∧
      ((c6Chain.length = 1 ∨ ∃ y ys, c6Chain = y :: ys ∧ 10 ≤ y.length_) →
        gather 10 c6Chain = .ok c6Chain) :=
  ⟨by decide, (c6_gather_postcondition 10 c6Chain (by decide)).1,
    (c6_gather_postcondition 10 c6Chain (by decide)).2⟩

/-- Running the iterator along a linked path: starting at node `a` with the
end sentinel `e` stored, as long as the sentinel has not been reached the
iterator sits on the successive path nodes with their cached byte ranges,
and the step off the last node nulls both fields. -/
theorem iter_run_seg (nf pf dataOf lenOf : Nat → Nat) :
    ∀ (l : List Nat) (a e : Nat),
      linkSeq nf pf a l e →
      e ∉ l →
      (∀ j, j < (a :: l).length →
        iterateN nf dataOf lenOf j (mkIter dataOf lenOf (some a) (some e)) =
          some (mkIter dataOf lenOf (some ((a :: l).getD j 0)) (some e))) ∧
      iterateN nf dataOf lenOf (a :: l).length (mkIter dataOf lenOf (some a) (some e)) =
        some (mkIter dataOf lenOf none none) := by
  intro l
  induction l with
  | nil =>
    intro a e h he
    constructor
    · intro j hj
      have hj0 : j = 0 := by simpa using hj
      subst hj0
      rfl
    · have hcond : (some (nf a) : Option Nat) = some e := by rw [h.1]
      show (iterIncrement nf dataOf lenOf (mkIter dataOf lenOf (some a) (some e))).bind
          (iterateN nf dataOf lenOf 0) = some (mkIter dataOf lenOf none none)
      simp only [iterIncrement, mkIter]
      rw [if_pos hcond]
      rfl
  | cons b l ih =>
    intro a e h he
    obtain ⟨h1, h2, h3⟩ := h
    have henb : e ∉ l := fun hm => he (List.mem_cons_of_mem b hm)
    have hneb : e ≠ b := fun heq => he (heq ▸ List.mem_cons_self b l)
    obtain ⟨ihj, ihfull⟩ := ih b e h3 henb
    have hcond : ¬ ((some (nf a) : Option Nat) = some e) := by
      intro hc
      rw [h1] at hc
      exact hneb (Option.some.inj hc).symm
    have hstep : iterIncrement nf dataOf lenOf (mkIter dataOf lenOf (some a) (some e)) =
        some (mkIter dataOf lenOf (some b) (some e)) := by
      simp only [iterIncrement, mkIter]
      rw [if_neg hcond, h1]
    constructor
    · intro j hj
      cases j with
      | zero => rfl
      | succ j2 =>
        have hj2 : j2 < (b :: l).length := by simpa using hj
        show (iterIncrement nf dataOf lenOf (mkIter dataOf lenOf (some a) (some e))).bind
            (iterateN nf dataOf lenOf j2) =
          some (mkIter dataOf lenOf (some ((b :: l).getD j2 0)) (some e))
        rw [hstep]
        exact ihj j2 hj2
    · show (iterIncrement nf dataOf lenOf (mkIter dataOf lenOf (some a) (some e))).bind
          (iterateN nf dataOf lenOf (b :: l).length) =
        some (mkIter dataOf lenOf none none)
      rw [hstep]
      exact ihfull

/-- Claim C8: on a circular chain whose members in order are x :: l, the
iterator built at x visits, for j below the chain length, exactly the j-th
chain element with its cached byte range (data, data + length); the step
taken from the last element nulls both iterator fields, yielding exactly the
canonical end iterator with pos and end null, which compares equal to the
end iterator under the source equality. -/
theorem c8_iterator_yields_chain (nf pf dataOf lenOf : Nat → Nat) (x : Nat)
    (l : List Nat) (hchain : linkSeq nf pf x l x) (hnd : (x :: l).Nodup) :
    (∀ j, j < (x :: l).length →
      iterateN nf dataOf lenOf j (beginAt dataOf lenOf x) =
        some (mkIter dataOf lenOf (some ((x :: l).getD j 0)) (some x)) ∧
      (mkIter dataOf lenOf (some ((x :: l).getD j 0)) (some x)).val =
        (dataOf ((x :: l).getD j 0),
          dataOf ((x :: l).getD j 0) + lenOf ((x :: l).getD j 0))) ∧
    iterateN nf dataOf lenOf (x :: l).length (beginAt dataOf lenOf x) =
      some (endIter dataOf lenOf) ∧
    (endIter dataOf lenOf).pos = none ∧
    (endIter dataOf lenOf).iend = none ∧
    iterEqual (endIter dataOf lenOf) (mkIter dataOf lenOf none none) := by
  have hxl : x ∉ l := (List.nodup_cons.mp hnd).1
  obtain ⟨hrun, hfull⟩ := iter_run_seg nf pf dataOf lenOf l x x hchain hxl
  refine ⟨?_, hfull, rfl, rfl, ⟨rfl, rfl⟩⟩
  intro j hj
  exact ⟨hrun j hj, rfl⟩

/-- Witness for C8 on the concrete three-element circular chain 0,1,2. -/
theorem c8_witness :
    linkSeq c8Next c8Prev 0 [1, 2] 0 ∧ (0 :: [1, 2]).Nodup ∧
      ((∀ j, j < (0 :: [1, 2]).length →
        iterateN c8Next c8Data c8Len j (beginAt c8Data c8Len 0) =
          some (mkIter c8Data c8Len (some ((0 :: [1, 2]).getD j 0)) (some 0)) ∧
        (mkIter c8Data c8Len (some ((0 :: [1, 2]).getD j 0)) (some 0)).val =
          (c8Data ((0 :: [1, 2]).getD j 0),
            c8Data ((0 :: [1, 2]).getD j 0) + c8Len ((0 :: [1, 2]).getD j 0))) ∧
      iterateN c8Next c8Data c8Len (0 :: [1, 2]).length (beginAt c8Data c8Len 0) =
        some (endIter c8Data c8Len) ∧
      (endIter c8Data c8Len).pos = none ∧
      (endIter c8Data c8Len).iend = none ∧
      iterEqual (endIter c8Data c8Len) (mkIter c8Data c8Len none none)) :=
  ⟨by decide, by decide,
    c8_iterator_yields_chain c8Next c8Prev c8Data c8Len 0 [1, 2]
      (by decide) (by decide)⟩

/-- Counterexample for C7 as stated: with headroom 2^32 - 1, size 1 and no
tailroom ask, the uint32 capacity computation wraps to 0, so the resulting
arena capacity is 0 rather than at least the true sum. -/
theorem c7_counterexample :
    (copyBuffer 0 0 (fun _ => 0) 1 4294967295 0).capacity_ = 0 ∧
      ¬ (4294967295 + 1 + 0 ≤ (copyBuffer 0 0 (fun _ => 0) 1 4294967295 0).capacity_) := by
  constructor
  · rfl
  · intro hle
    have : (copyBuffer 0 0 (fun _ => 0) 1 4294967295 0).capacity_ = 0 := rfl
    omega

end IOBufModel
